import Mathlib

/-!
# Verification of the expense aggregation and persistence logic of `ExpenseScreen.js`

This file is a shallow embedding of the logic of `src/ExpenseScreen.js`:

* the aggregation engine (lines 85-102): the `filtered` list, the `total`
  and the `catTotals` accumulator, plus the `Object.entries` display order
  used at lines 151-159;
* the persistence-facing `submit` handler (lines 52-71): validation,
  the UPDATE branch and the INSERT branch.

Modelling conventions, stated once here:

* The runtime's local time zone is modelled as UTC, so `getDate`, `getDay`,
  `getMonth` and `getFullYear` coincide with the UTC calendar fields of the
  instant, and `new Date("YYYY-MM-DD")` denotes midnight UTC of that civil
  date (per ECMA-262, date-only ISO forms are interpreted as UTC).
* An instant is a civil date plus a millisecond-of-day offset; its epoch
  value is `dayNumber * 86400000 + msOfDay`.  JavaScript `Date` comparison
  (`d >= startWeek`) is comparison of epoch milliseconds.
* `startWeek.setDate(today.getDate() - today.getDay())` shifts the calendar
  day of `today` back by its weekday index (day-of-month underflow rolls
  into earlier months), keeping the time of day; this is day-number
  arithmetic: `dayNumber(startWeek) = dayNumber(today) - weekday(today)`.
* Engine amounts are exact rationals: the engine's contract (spec section 7)
  requires records handed to it to carry numeric amounts, and sums of
  expense amounts are modelled exactly.
* `parseFloat` results in the submit handler are modelled as extended
  numbers (`JSNum`): NaN, +Infinity, -Infinity, or a finite rational.
* The `catTotals` accumulator `{}` is modelled with its prototype chain.
  A property read falls back from the own-property map to the properties of
  `Object.prototype`: the eleven function-valued writable data properties
  (`protoProps`, all truthy) and the `__proto__` accessor (whose getter
  returns the prototype, a truthy object), and is `undefined` otherwise.
  Adding a number to a non-number operand concatenates to a string; such a
  value is modelled by the marker `JSVal.nonNum`, since its exact text goes
  through the implementation-defined `Function.prototype.toString` (or
  `"[object Object]"`), and only its being non-numeric and truthy is
  observable in this program.  An assignment to `__proto__` invokes the
  inherited setter, which with a non-object value creates no own property
  and changes nothing; any other assignment creates or updates an own
  property.  `Object.entries` enumerates own string keys only, with
  canonical array-index keys (integers 0 .. 2^32-2 in canonical decimal
  form) first in ascending numeric order, followed by the remaining keys in
  insertion order.
-/

/-- A civil calendar date (year, month 1-12, day 1-31). -/
structure CDate where
  y : Int
  m : Nat
  d : Nat
deriving DecidableEq

/-- Days since 1970-01-01 of a civil date (standard civil-from-days
algorithm, floor divisions). -/
def dayNumber (dt : CDate) : Int :=
  let yy : Int := if dt.m ≤ 2 then dt.y - 1 else dt.y
  let era : Int := Int.fdiv yy 400
  let yoe : Int := yy - era * 400
  let mp : Int := if dt.m ≤ 2 then (dt.m : Int) + 9 else (dt.m : Int) - 3
  let doy : Int := (153 * mp + 2) / 5 + (dt.d : Int) - 1
  let doe : Int := yoe * 365 + yoe / 4 - yoe / 100 + doy
  era * 146097 + doe - 719468

/-- JavaScript `getDay()` weekday index, 0 = Sunday: 1970-01-01 was a
Thursday (index 4). -/
def weekdayIndex (dt : CDate) : Int :=
  (dayNumber dt + 4) % 7

/-- A reference instant: a civil date plus milliseconds elapsed since that
date's midnight (UTC model). -/
structure Instant where
  date : CDate
  msOfDay : Nat
deriving DecidableEq

def msPerDay : Int := 86400000

/-- Epoch milliseconds of `new Date("YYYY-MM-DD")`: midnight UTC of the
civil date. -/
def dateMs (dt : CDate) : Int := dayNumber dt * msPerDay

/-- Epoch milliseconds of the `startWeek` value computed at lines 85-87:
a copy of `today` whose calendar day is moved back by `today.getDay()`
days, keeping the time of day. -/
def startWeekMs (now : Instant) : Int :=
  (dayNumber now.date - weekdayIndex now.date) * msPerDay + now.msOfDay

/-- An expense record as consumed by the aggregation engine: a row of the
`expenses` table with a numeric amount and a valid `date`. -/
structure Expense where
  id : Int
  amount : ℚ
  category : String
  note : Option String
  date : CDate
deriving DecidableEq

/-- The filter predicate of lines 89-95: under `"WEEK"` the record's date
(midnight instant) is compared against `startWeek` by epoch value; under
`"MONTH"` the month and year fields are compared; any other selector lets
every record pass. -/
def passesFilter (filter : String) (now : Instant) (e : Expense) : Bool :=
  if filter = "WEEK" then
    decide (startWeekMs now ≤ dateMs e.date)
  else if filter = "MONTH" then
    decide (e.date.m = now.date.m) && decide (e.date.y = now.date.y)
  else
    true

/-- `expenses.filter(...)` of lines 89-95. -/
def filteredExpenses (expenses : List Expense) (filter : String) (now : Instant) :
    List Expense :=
  expenses.filter (passesFilter filter now)

/-- `filtered.reduce((sum, e) => sum + Number(e.amount), 0)` of line 97. -/
def totalOf (filtered : List Expense) : ℚ :=
  filtered.foldl (fun sum e => sum + e.amount) 0

/-- A value stored in (or computed from) a plain-object property in this
program: a number, or the non-numeric string produced when a JavaScript
`+` concatenates a non-number operand (an inherited `Object.prototype`
function, the prototype object, or an earlier such string) with a number.
The string's exact text is implementation-defined
(`Function.prototype.toString`), so the model keeps only the marker; every
such string is nonempty, hence truthy. -/
inductive JSVal where
  | num : ℚ → JSVal
  | nonNum : JSVal
deriving DecidableEq

/-- The own, function-valued, writable data properties of
`Object.prototype` (ECMA-262 plus Annex B).  Reading one of these names on
`{}` yields a truthy function; assigning to it shadows it with an own
property. -/
def protoProps : List String :=
  ["constructor", "hasOwnProperty", "isPrototypeOf", "propertyIsEnumerable",
   "toLocaleString", "toString", "valueOf",
   "__defineGetter__", "__defineSetter__", "__lookupGetter__", "__lookupSetter__"]

/-- Own-property lookup on the accumulator object. -/
def getOwn : List (String × JSVal) → String → Option JSVal
  | [], _ => none
  | p :: rest, k => if p.1 = k then some p.2 else getOwn rest k

/-- Own-property assignment: an existing key keeps its position and gets
the new value; a new key is appended (insertion order). -/
def setOwn : List (String × JSVal) → String → JSVal → List (String × JSVal)
  | [], k, v => [(k, v)]
  | p :: rest, k, v =>
    if p.1 = k then (p.1, v) :: rest else p :: setOwn rest k v

/-- One step of the accumulator update `acc[k] = (acc[k] || 0) + v`
(line 100), with the `{}` prototype chain.  Key `"__proto__"`: the read
yields the prototype (truthy object) and the `+` produces a string, but
the assignment invokes the inherited `__proto__` setter, which ignores a
non-object value — no own property is created or changed.  Otherwise the
read yields the own value if present (number: add; string: truthy, and
`string + number` is again a string), else an inherited `Object.prototype`
function for the names in `protoProps` (truthy, concatenates to a string),
else `undefined` (falsy, so `|| 0` gives `0` and the sum starts at `v`);
the result is assigned as an own property. -/
def bump (acc : List (String × JSVal)) (k : String) (v : ℚ) :
    List (String × JSVal) :=
  if k = "__proto__" then acc
  else
    match getOwn acc k with
    | some (JSVal.num q) => setOwn acc k (JSVal.num (q + v))
    | some JSVal.nonNum => setOwn acc k JSVal.nonNum
    | none =>
      if k ∈ protoProps then setOwn acc k JSVal.nonNum
      else setOwn acc k (JSVal.num v)

/-- `filtered.reduce((acc, e) => { acc[e.category] = ...; return acc }, {})`
of lines 99-102, as the insertion-ordered own-property map of the
accumulator object. -/
def catTotalsOf (filtered : List Expense) : List (String × JSVal) :=
  filtered.foldl (fun acc e => bump acc e.category e.amount) []

/-- The numeric reading of a stored value (a non-numeric string counts 0);
used only under the hypothesis that every stored value is numeric. -/
def numOr0 : JSVal → ℚ
  | JSVal.num q => q
  | JSVal.nonNum => 0

/-- Numeric reading of an optional property value (absent counts 0). -/
def numOr0Opt : Option JSVal → ℚ
  | some w => numOr0 w
  | none => 0

/-- The result triple of the aggregation engine (spec section 6:
`aggregate(records, selector, now)`). -/
structure AggResult where
  filtered : List Expense
  total : ℚ
  categoryTotals : List (String × JSVal)
deriving DecidableEq

/-- The aggregation engine: lines 85-102 as a pure function of the record
snapshot, the selector and the reference instant. -/
def aggregate (records : List Expense) (selector : String) (now : Instant) :
    AggResult :=
  { filtered := filteredExpenses records selector now
    total := totalOf (filteredExpenses records selector now)
    categoryTotals := catTotalsOf (filteredExpenses records selector now) }

/-- Numeric value of a digit string. -/
def digitsVal (cs : List Char) : Nat :=
  cs.foldl (fun n c => 10 * n + (c.toNat - 48)) 0

/-- Whether a string is the canonical decimal form of a natural number:
nonempty, all digits, no leading zero (except the string `"0"` itself). -/
def isCanonicalNat (s : String) : Bool :=
  match s.toList with
  | [] => false
  | c :: rest => (c :: rest).all (fun x => x.isDigit) && (c ≠ '0' || rest.isEmpty)

/-- Whether a string is a JavaScript array-index property key: the canonical
decimal form of an integer in 0 .. 2^32 - 2. -/
def isArrayIndexStr (s : String) : Bool :=
  isCanonicalNat s && digitsVal s.toList < 4294967295

/-- Insert a key-value pair into a list sorted ascending by the numeric
value of the key. -/
def insertAscPair (p : String × JSVal) :
    List (String × JSVal) → List (String × JSVal)
  | [] => [p]
  | q :: rest =>
    if digitsVal p.1.toList ≤ digitsVal q.1.toList then p :: q :: rest
    else q :: insertAscPair p rest

/-- Sort an association list ascending by the numeric value of the keys. -/
def sortAscPairs (l : List (String × JSVal)) : List (String × JSVal) :=
  l.foldr insertAscPair []

/-- `Object.entries` enumeration order on the insertion-ordered own-property
map (used at line 154): array-index keys first, ascending numerically, then
the remaining string keys in insertion order. -/
def jsObjectEntries (l : List (String × JSVal)) : List (String × JSVal) :=
  sortAscPairs (l.filter (fun p => isArrayIndexStr p.1)) ++
    l.filter (fun p => !isArrayIndexStr p.1)

/-- Insert a key into a key list sorted ascending by numeric value. -/
def insertAscKey (k : String) : List String → List String
  | [] => [k]
  | k' :: rest =>
    if digitsVal k.toList ≤ digitsVal k'.toList then k :: k' :: rest
    else k' :: insertAscKey k rest

/-- The `Object.entries` key order applied to a plain key list. -/
def jsKeyOrder (ks : List String) : List String :=
  (ks.filter (fun k => isArrayIndexStr k)).foldr insertAscKey [] ++
    ks.filter (fun k => !isArrayIndexStr k)

/-- The distinct category labels of a record list, in order of first
occurrence. -/
def firstOccurrenceCats (l : List Expense) : List String :=
  l.foldl (fun ks e => if e.category ∈ ks then ks else ks ++ [e.category]) []

/-- The WEEK rule exactly as the spec words it (section 4.1): the record
passes iff its calendar date is on or after the calendar day
`now.day - now.weekday_index` — a comparison of day numbers, ignoring the
time of day.  Kept separate from `passesFilter`, which embeds the source. -/
def weekPassSpec (now : Instant) (e : Expense) : Bool :=
  decide (dayNumber now.date - weekdayIndex now.date ≤ dayNumber e.date)

/-- A JavaScript number as produced by `parseFloat`: NaN, an infinity, or a
finite value (modelled exactly as a rational). -/
inductive JSNum where
  | nan : JSNum
  | posInf : JSNum
  | negInf : JSNum
  | fin : ℚ → JSNum
deriving DecidableEq

/-- `isNaN(v)` for a numeric value. -/
def jsIsNaN : JSNum → Bool
  | JSNum.nan => true
  | _ => false

/-- JavaScript `<=` on numbers: any comparison with NaN is false. -/
def jsLe : JSNum → JSNum → Bool
  | JSNum.nan, _ => false
  | _, JSNum.nan => false
  | JSNum.negInf, _ => true
  | _, JSNum.posInf => true
  | JSNum.posInf, _ => false
  | JSNum.fin _, JSNum.negInf => false
  | JSNum.fin q, JSNum.fin r => decide (q ≤ r)

/-- JavaScript `<` on numbers: any comparison with NaN is false. -/
def jsLt : JSNum → JSNum → Bool
  | JSNum.nan, _ => false
  | _, JSNum.nan => false
  | _, JSNum.negInf => false
  | JSNum.negInf, _ => true
  | JSNum.posInf, _ => false
  | JSNum.fin _, JSNum.posInf => true
  | JSNum.fin q, JSNum.fin r => decide (q < r)

/-- Whether a numeric value is finite. -/
def isFiniteNum : JSNum → Bool
  | JSNum.fin _ => true
  | _ => false

/-- The JavaScript `String.prototype.trim` whitespace set (WhiteSpace and
LineTerminator code points). -/
def jsWhitespaceCodes : List Nat :=
  [9, 10, 11, 12, 13, 32, 160, 5760,
   8192, 8193, 8194, 8195, 8196, 8197, 8198, 8199, 8200, 8201, 8202,
   8232, 8233, 8239, 8287, 12288, 65279]

def isJsWhitespace (c : Char) : Bool :=
  jsWhitespaceCodes.contains c.toNat

/-- `trim()` on a character list: drop whitespace from both ends. -/
def jsTrimList (cs : List Char) : List Char :=
  ((cs.dropWhile isJsWhitespace).reverse.dropWhile isJsWhitespace).reverse

/-- JavaScript `s.trim()`. -/
def jsTrim (s : String) : String :=
  String.mk (jsTrimList s.toList)

/-- `s || null` on a string operand: the empty string is falsy and yields
`null` (absent); any other string is kept. -/
def jsOrNull (s : String) : Option String :=
  if s = "" then none else some s

/-- A persisted row of the `expenses` table (the `date` column is the TEXT
value written at insert time). -/
structure Row where
  id : Int
  amount : JSNum
  category : String
  note : Option String
  date : String
deriving DecidableEq

/-- The validation guard of line 54:
`isNaN(val) || val <= 0 || !category.trim()` (a string is falsy exactly
when it is empty). -/
def validationFails (val : JSNum) (category : String) : Bool :=
  jsIsNaN val || jsLe val (JSNum.fin 0) || (jsTrim category == "")

/-- The `submit` handler of lines 52-71, acting on the persisted table.
`val` is the `parseFloat(amount)` result, `editingId` the edit target
(`null` or a row id), `today` the date string
`new Date().toISOString().slice(0, 10)`, and `nextId` the id the
AUTOINCREMENT column assigns on insert.  JavaScript `if (editingId)` is a
truthiness test, so an edit target of `0` falls through to the INSERT
branch (SQLite AUTOINCREMENT ids start at 1, so this never happens in
practice). -/
def submit (db : List Row) (val : JSNum) (category note : String)
    (editingId : Option Int) (today : String) (nextId : Int) : List Row :=
  if validationFails val category then db
  else
    let newNote := jsOrNull (jsTrim note)
    let inserted := db ++ [⟨nextId, val, jsTrim category, newNote, today⟩]
    match editingId with
    | some i =>
      if i = 0 then inserted
      else
        db.map fun r =>
          if r.id = i then
            { r with amount := val, category := jsTrim category, note := newNote }
          else r
    | none => inserted

/-- Whether a persisted row satisfies the write-time invariant: positive
amount (in the JavaScript order, where `0 < Infinity`) and a category that
is non-empty after trimming. -/
def rowOk (r : Row) : Prop :=
  jsLt (JSNum.fin 0) r.amount = true ∧ jsTrim r.category ≠ ""

section EngineLemmas

theorem totalOf_aux (l : List Expense) :
    ∀ a : ℚ, l.foldl (fun sum e => sum + e.amount) a = a + (l.map Expense.amount).sum := by
  induction l with
  | nil => intro a; simp
  | cons e l ih => intro a; simp [List.foldl_cons, ih, add_assoc]

theorem totalOf_eq_sum (l : List Expense) :
    totalOf l = (l.map Expense.amount).sum := by
  simpa using totalOf_aux l 0

theorem passesFilter_other (sel : String) (now : Instant) (e : Expense)
    (h1 : sel ≠ "WEEK") (h2 : sel ≠ "MONTH") :
    passesFilter sel now e = true := by
  simp [passesFilter, h1, h2]

theorem filteredExpenses_other (recs : List Expense) (sel : String) (now : Instant)
    (h1 : sel ≠ "WEEK") (h2 : sel ≠ "MONTH") :
    filteredExpenses recs sel now = recs := by
  unfold filteredExpenses
  exact List.filter_eq_self.mpr fun e _ => passesFilter_other sel now e h1 h2

theorem setOwn_keys (acc : List (String × JSVal)) (k : String) (v : JSVal) :
    (setOwn acc k v).map Prod.fst =
      if k ∈ acc.map Prod.fst then acc.map Prod.fst else acc.map Prod.fst ++ [k] := by
  induction acc with
  | nil => simp [setOwn]
  | cons p rest ih =>
    by_cases hp : p.1 = k
    · simp [setOwn, hp]
    · have hk : ¬ (k = p.1) := fun h => hp h.symm
      by_cases hmem : k ∈ rest.map Prod.fst <;>
        simp [setOwn, hp, hk, hmem, ih]

theorem bump_keys (acc : List (String × JSVal)) (k : String) (v : ℚ) :
    (bump acc k v).map Prod.fst =
      if k = "__proto__" then acc.map Prod.fst
      else if k ∈ acc.map Prod.fst then acc.map Prod.fst
      else acc.map Prod.fst ++ [k] := by
  by_cases hk : k = "__proto__"
  · simp [bump, hk]
  · rw [if_neg hk]
    unfold bump
    rw [if_neg hk]
    rcases hg : getOwn acc k with _ | w
    · by_cases hp : k ∈ protoProps <;> simp [hg, hp, setOwn_keys]
    · cases w <;> simp [hg, setOwn_keys]

theorem catFold_keys (l : List Expense) :
    ∀ acc : List (String × JSVal),
      (l.foldl (fun a e => bump a e.category e.amount) acc).map Prod.fst =
        l.foldl
          (fun ks e =>
            if e.category = "__proto__" then ks
            else if e.category ∈ ks then ks else ks ++ [e.category])
          (acc.map Prod.fst) := by
  induction l with
  | nil => intro acc; simp
  | cons e l ih =>
    intro acc
    simp only [List.foldl_cons]
    rw [ih, bump_keys]

theorem foldl_skip_filter (l : List Expense) :
    ∀ ks : List String,
      l.foldl
        (fun ks e =>
          if e.category = "__proto__" then ks
          else if e.category ∈ ks then ks else ks ++ [e.category])
        (ks.filter (fun x => x ≠ "__proto__")) =
      (l.foldl (fun ks e => if e.category ∈ ks then ks else ks ++ [e.category])
          ks).filter (fun x => x ≠ "__proto__") := by
  induction l with
  | nil => intro ks; rfl
  | cons e l ih =>
    intro ks
    simp only [List.foldl_cons]
    have hstep :
        (if e.category = "__proto__" then ks.filter (fun x => x ≠ "__proto__")
         else if e.category ∈ ks.filter (fun x => x ≠ "__proto__") then
           ks.filter (fun x => x ≠ "__proto__")
         else ks.filter (fun x => x ≠ "__proto__") ++ [e.category]) =
        (if e.category ∈ ks then ks else ks ++ [e.category]).filter
          (fun x => x ≠ "__proto__") := by
      by_cases hc : e.category = "__proto__"
      · rw [if_pos hc]
        by_cases hmem : e.category ∈ ks
        · rw [if_pos hmem]
        · rw [if_neg hmem, List.filter_append]
          simp [hc]
      · rw [if_neg hc]
        have hmf : e.category ∈ ks.filter (fun x => x ≠ "__proto__") ↔
            e.category ∈ ks := by
          simp [List.mem_filter, hc]
        by_cases hmem : e.category ∈ ks
        · rw [if_pos (hmf.mpr hmem), if_pos hmem]
        · rw [if_neg (fun h => hmem (hmf.mp h)), if_neg hmem, List.filter_append]
          simp [hc]
    rw [hstep]
    exact ih _

theorem catTotalsOf_keys (l : List Expense) :
    (catTotalsOf l).map Prod.fst =
      (firstOccurrenceCats l).filter (fun x => x ≠ "__proto__") := by
  have h1 := catFold_keys l []
  have h2 := foldl_skip_filter l []
  exact (h1.trans h2)

theorem mem_foldl_firstOcc (l : List Expense) :
    ∀ (ks : List String) (k : String),
      (k ∈ l.foldl (fun ks e => if e.category ∈ ks then ks else ks ++ [e.category]) ks) ↔
        k ∈ ks ∨ ∃ e ∈ l, e.category = k := by
  induction l with
  | nil => intro ks k; simp
  | cons e l ih =>
    intro ks k
    simp only [List.foldl_cons]
    rw [ih]
    have hstep : k ∈ (if e.category ∈ ks then ks else ks ++ [e.category]) ↔
        k ∈ ks ∨ e.category = k := by
      by_cases hmem : e.category ∈ ks
      · simp only [if_pos hmem]
        constructor
        · exact fun h => Or.inl h
        · rintro (h | h)
          · exact h
          · exact h ▸ hmem
      · simp [if_neg hmem, eq_comm]
    rw [hstep]
    constructor
    · rintro ((h | h) | ⟨e', he', hc⟩)
      · exact Or.inl h
      · exact Or.inr ⟨e, List.mem_cons_self e l, h⟩
      · exact Or.inr ⟨e', List.mem_cons_of_mem e he', hc⟩
    · rintro (h | ⟨e', he', hc⟩)
      · exact Or.inl (Or.inl h)
      · rcases List.mem_cons.mp he' with h1 | h1
        · subst h1; exact Or.inl (Or.inr hc)
        · exact Or.inr ⟨e', h1, hc⟩

theorem mem_firstOccurrenceCats (l : List Expense) (k : String) :
    k ∈ firstOccurrenceCats l ↔ ∃ e ∈ l, e.category = k := by
  simpa [firstOccurrenceCats] using mem_foldl_firstOcc l [] k

theorem mem_catTotalsOf_keys (l : List Expense) (k : String) :
    k ∈ (catTotalsOf l).map Prod.fst ↔
      (∃ e ∈ l, e.category = k) ∧ k ≠ "__proto__" := by
  rw [catTotalsOf_keys, List.mem_filter, mem_firstOccurrenceCats]
  simp

end EngineLemmas

section OrderLemmas

theorem map_fst_insertAscPair (p : String × JSVal) (l : List (String × JSVal)) :
    (insertAscPair p l).map Prod.fst = insertAscKey p.1 (l.map Prod.fst) := by
  induction l with
  | nil => simp [insertAscPair, insertAscKey]
  | cons q rest ih =>
    simp only [insertAscPair, insertAscKey]
    split_ifs
    · simp
    · simp [ih]

theorem map_fst_sortAscPairs (l : List (String × JSVal)) :
    (sortAscPairs l).map Prod.fst = (l.map Prod.fst).foldr insertAscKey [] := by
  induction l with
  | nil => simp [sortAscPairs]
  | cons p rest ih =>
    simp only [sortAscPairs, List.foldr_cons, List.map_cons]
    rw [map_fst_insertAscPair]
    simp only [sortAscPairs] at ih
    rw [ih]

theorem map_fst_filter_fst (q : String → Bool) (l : List (String × JSVal)) :
    (l.filter (fun p => q p.1)).map Prod.fst = (l.map Prod.fst).filter q := by
  induction l with
  | nil => simp
  | cons p rest ih =>
    by_cases h : q p.1 <;> simp [List.filter_cons, h, ih]

theorem jsObjectEntries_map_fst (l : List (String × JSVal)) :
    (jsObjectEntries l).map Prod.fst = jsKeyOrder (l.map Prod.fst) := by
  simp only [jsObjectEntries, jsKeyOrder, List.map_append]
  rw [map_fst_sortAscPairs, map_fst_filter_fst isArrayIndexStr,
    map_fst_filter_fst (fun k => !isArrayIndexStr k)]

end OrderLemmas

section LookupLemmas

theorem getOwn_setOwn_self (acc : List (String × JSVal)) (k : String) (v : JSVal) :
    getOwn (setOwn acc k v) k = some v := by
  induction acc with
  | nil => simp [setOwn, getOwn]
  | cons p rest ih =>
    by_cases hp : p.1 = k <;> simp [setOwn, getOwn, hp, ih]

theorem getOwn_setOwn_ne (acc : List (String × JSVal)) (k k' : String) (v : JSVal)
    (h : k' ≠ k) :
    getOwn (setOwn acc k v) k' = getOwn acc k' := by
  have hkk : ¬ (k = k') := fun hk => h hk.symm
  induction acc with
  | nil => simp [setOwn, getOwn, hkk]
  | cons p rest ih =>
    by_cases hp : p.1 = k
    · simp [setOwn, getOwn, hp, hkk]
    · by_cases hp' : p.1 = k' <;> simp [setOwn, getOwn, hp, hp', h, ih]

theorem getOwn_mem (l : List (String × JSVal)) (k : String) (w : JSVal)
    (h : getOwn l k = some w) : (k, w) ∈ l := by
  induction l with
  | nil => cases h
  | cons p rest ih =>
    rw [getOwn] at h
    by_cases hp : p.1 = k
    · rw [if_pos hp] at h
      have hw : p.2 = w := Option.some.inj h
      have hkw : (k, w) = p := by
        rw [← hp, ← hw]
      rw [hkw]
      exact List.mem_cons_self p rest
    · rw [if_neg hp] at h
      exact List.mem_cons_of_mem p (ih h)

theorem getOwn_of_mem (l : List (String × JSVal)) (k : String) (v : JSVal)
    (hnd : (l.map Prod.fst).Nodup) (hmem : (k, v) ∈ l) : getOwn l k = some v := by
  induction l with
  | nil => cases hmem
  | cons p rest ih =>
    simp only [List.map_cons, List.nodup_cons] at hnd
    rcases List.mem_cons.mp hmem with h | h
    · subst h
      simp [getOwn]
    · have hk : ¬ (p.1 = k) := by
        intro hpk
        exact hnd.1 (hpk ▸ (List.mem_map.mpr ⟨(k, v), h, rfl⟩))
      simp [getOwn, hk, ih hnd.2 h]

theorem bump_getOwn_ne (acc : List (String × JSVal)) (k k' : String) (v : ℚ)
    (h : k' ≠ k) :
    getOwn (bump acc k v) k' = getOwn acc k' := by
  by_cases hk : k = "__proto__"
  · simp [bump, hk]
  · unfold bump
    rw [if_neg hk]
    rcases hg : getOwn acc k with _ | w
    · by_cases hp : k ∈ protoProps <;>
        simp [hg, hp, getOwn_setOwn_ne _ _ _ _ h]
    · cases w <;> simp [hg, getOwn_setOwn_ne _ _ _ _ h]

theorem bump_getOwn_self (acc : List (String × JSVal)) (k : String) (v : ℚ)
    (hk : k ≠ "__proto__") :
    getOwn (bump acc k v) k =
      match getOwn acc k with
      | some (JSVal.num q) => some (JSVal.num (q + v))
      | some JSVal.nonNum => some JSVal.nonNum
      | none =>
        if k ∈ protoProps then some JSVal.nonNum
        else some (JSVal.num v) := by
  unfold bump
  rw [if_neg hk]
  rcases hg : getOwn acc k with _ | w
  · by_cases hp : k ∈ protoProps <;> simp [hg, hp, getOwn_setOwn_self]
  · cases w <;> simp [hg, getOwn_setOwn_self]

theorem catFold_getOwn (l : List Expense) :
    ∀ (acc : List (String × JSVal)) (k : String), k ≠ "__proto__" →
      getOwn (l.foldl (fun a e => bump a e.category e.amount) acc) k =
        match getOwn acc k with
        | some (JSVal.num q) =>
          some (JSVal.num
            (q + ((l.filter (fun e => e.category = k)).map Expense.amount).sum))
        | some JSVal.nonNum => some JSVal.nonNum
        | none =>
          if l.any (fun e => e.category = k) then
            if k ∈ protoProps then some JSVal.nonNum
            else some (JSVal.num
              ((l.filter (fun e => e.category = k)).map Expense.amount).sum)
          else none := by
  induction l with
  | nil =>
    intro acc k hk
    rcases hg : getOwn acc k with _ | w
    · simp [hg]
    · cases w <;> simp [hg]
  | cons e l ih =>
    intro acc k hk
    simp only [List.foldl_cons]
    by_cases hc : e.category = k
    · subst hc
      rw [ih (bump acc e.category e.amount) e.category hk,
        bump_getOwn_self acc e.category e.amount hk]
      rcases hg : getOwn acc e.category with _ | w
      · simp only [hg]
        by_cases hp : e.category ∈ protoProps
        · simp [hp, List.any_cons, List.filter_cons]
        · simp [hp, List.any_cons, List.filter_cons]
      · cases w
        · simp only [hg]
          simp [List.filter_cons, add_assoc]
        · simp only [hg]
    · have hk' : k ≠ e.category := fun h => hc h.symm
      have hacc : getOwn (bump acc e.category e.amount) k = getOwn acc k := by
        by_cases hcp : e.category = "__proto__"
        · simp [bump, hcp]
        · exact bump_getOwn_ne _ _ _ _ hk'
      rw [ih (bump acc e.category e.amount) k hk, hacc]
      rcases hg : getOwn acc k with _ | w
      · simp [hg, List.any_cons, List.filter_cons, hc]
      · cases w <;> simp [hg, List.filter_cons, hc]

theorem bump_keys_nodup (acc : List (String × JSVal)) (k : String) (v : ℚ)
    (h : (acc.map Prod.fst).Nodup) : ((bump acc k v).map Prod.fst).Nodup := by
  rw [bump_keys]
  by_cases hk : k = "__proto__"
  · simpa [hk] using h
  · rw [if_neg hk]
    by_cases hmem : k ∈ acc.map Prod.fst
    · simpa [hmem] using h
    · simp [hmem, List.nodup_append, h]

theorem catFold_keys_nodup (l : List Expense) :
    ∀ acc : List (String × JSVal), (acc.map Prod.fst).Nodup →
      ((l.foldl (fun a e => bump a e.category e.amount) acc).map Prod.fst).Nodup := by
  induction l with
  | nil => intro acc h; simpa using h
  | cons e l ih =>
    intro acc h
    simp only [List.foldl_cons]
    exact ih _ (bump_keys_nodup acc e.category e.amount h)

theorem catTotalsOf_keys_nodup (l : List Expense) :
    ((catTotalsOf l).map Prod.fst).Nodup := by
  exact catFold_keys_nodup l [] (by simp)

end LookupLemmas

section SumLemmas

theorem setOwn_sum (acc : List (String × JSVal)) (k : String) (v : JSVal) :
    ((setOwn acc k v).map (fun p => numOr0 p.2)).sum =
      (acc.map (fun p => numOr0 p.2)).sum + numOr0 v -
        numOr0Opt (getOwn acc k) := by
  induction acc with
  | nil => simp [setOwn, getOwn, numOr0Opt]
  | cons p rest ih =>
    by_cases hp : p.1 = k
    · simp [setOwn, getOwn, hp, numOr0Opt]
      ring
    · simp [setOwn, getOwn, hp, ih]
      ring

theorem bump_sum_clean (acc : List (String × JSVal)) (k : String) (v : ℚ)
    (hk : k ≠ "__proto__") (hp : k ∉ protoProps)
    (hnum : ∀ w, getOwn acc k = some w → ∃ q, w = JSVal.num q) :
    ((bump acc k v).map (fun p => numOr0 p.2)).sum =
      (acc.map (fun p => numOr0 p.2)).sum + v := by
  unfold bump
  rw [if_neg hk]
  rcases hg : getOwn acc k with _ | w
  · simp only [hg, if_neg hp]
    rw [setOwn_sum, hg]
    simp [numOr0, numOr0Opt]
  · rcases hnum w hg with ⟨q, rfl⟩
    simp only [hg]
    rw [setOwn_sum, hg]
    simp [numOr0, numOr0Opt]
    ring

theorem setOwn_allNum (acc : List (String × JSVal)) (k : String) (v : JSVal)
    (hacc : ∀ p ∈ acc, ∃ q, p.2 = JSVal.num q) (hv : ∃ q, v = JSVal.num q) :
    ∀ p ∈ setOwn acc k v, ∃ q, p.2 = JSVal.num q := by
  induction acc with
  | nil =>
    intro p hp
    simp only [setOwn] at hp
    rw [List.mem_singleton.mp hp]
    exact hv
  | cons r rest ih =>
    intro p hp
    simp only [setOwn] at hp
    by_cases hr : r.1 = k
    · rw [if_pos hr] at hp
      rcases List.mem_cons.mp hp with h | h
      · rw [h]
        exact hv
      · exact hacc p (List.mem_cons_of_mem r h)
    · rw [if_neg hr] at hp
      rcases List.mem_cons.mp hp with h | h
      · rw [h]
        exact hacc r (List.mem_cons_self r rest)
      · exact ih (fun p' hp' => hacc p' (List.mem_cons_of_mem r hp')) p h

theorem bump_allNum (acc : List (String × JSVal)) (k : String) (v : ℚ)
    (hkp : k ∉ protoProps)
    (hacc : ∀ p ∈ acc, ∃ q, p.2 = JSVal.num q) :
    ∀ p ∈ bump acc k v, ∃ q, p.2 = JSVal.num q := by
  by_cases hk : k = "__proto__"
  · simpa [bump, hk] using hacc
  · unfold bump
    rw [if_neg hk]
    rcases hg : getOwn acc k with _ | w
    · simp only [hg, if_neg hkp]
      exact setOwn_allNum acc k _ hacc ⟨v, rfl⟩
    · cases w with
      | num q =>
        simp only [hg]
        exact setOwn_allNum acc k _ hacc ⟨q + v, rfl⟩
      | nonNum =>
        rcases hacc (k, JSVal.nonNum) (getOwn_mem acc k _ hg) with ⟨q, hq⟩
        simp at hq

theorem catFold_sum_clean (l : List Expense) :
    ∀ acc : List (String × JSVal),
      (∀ e ∈ l, e.category ≠ "__proto__" ∧ e.category ∉ protoProps) →
      (∀ p ∈ acc, ∃ q, p.2 = JSVal.num q) →
      ((l.foldl (fun a e => bump a e.category e.amount) acc).map
          (fun p => numOr0 p.2)).sum =
        (acc.map (fun p => numOr0 p.2)).sum + (l.map Expense.amount).sum ∧
      (∀ p ∈ l.foldl (fun a e => bump a e.category e.amount) acc,
        ∃ q, p.2 = JSVal.num q) := by
  induction l with
  | nil =>
    intro acc _ hacc
    exact ⟨by simp, hacc⟩
  | cons e l ih =>
    intro acc hcl hacc
    have he := hcl e (List.mem_cons_self e l)
    have hnum : ∀ w, getOwn acc e.category = some w → ∃ q, w = JSVal.num q := by
      intro w hw
      rcases hacc (e.category, w) (getOwn_mem acc e.category w hw) with ⟨q, hq⟩
      exact ⟨q, hq⟩
    have hacc' : ∀ p ∈ bump acc e.category e.amount, ∃ q, p.2 = JSVal.num q :=
      bump_allNum acc e.category e.amount he.2 hacc
    have hcl' : ∀ e' ∈ l,
        e'.category ≠ "__proto__" ∧ e'.category ∉ protoProps :=
      fun e' h => hcl e' (List.mem_cons_of_mem e h)
    rcases ih (bump acc e.category e.amount) hcl' hacc' with ⟨hsum, hall⟩
    refine ⟨?_, hall⟩
    simp only [List.foldl_cons]
    rw [hsum, bump_sum_clean acc e.category e.amount he.1 he.2 hnum]
    simp [add_assoc]

end SumLemmas

section TrimLemmas

theorem dropWhile_idem (p : Char → Bool) (l : List Char) :
    List.dropWhile p (List.dropWhile p l) = List.dropWhile p l := by
  induction l with
  | nil => rfl
  | cons a l ih =>
    by_cases h : p a
    · simp [List.dropWhile_cons, h, ih]
    · simp [List.dropWhile_cons, h]

theorem dropWhile_length_le (p : Char → Bool) (l : List Char) :
    (List.dropWhile p l).length ≤ l.length := by
  induction l with
  | nil => simp
  | cons a l ih =>
    rw [List.dropWhile_cons]
    by_cases h : p a
    · rw [if_pos h]; simp; omega
    · rw [if_neg h]

theorem dropWhile_of_append_eq (p : Char → Bool) (m m' s : List Char)
    (hm : List.dropWhile p m = m) (hs : m' ++ s = m) :
    List.dropWhile p m' = m' := by
  cases m' with
  | nil => rfl
  | cons a l' =>
    have hma : m = a :: (l' ++ s) := by rw [← hs]; rfl
    rw [hma, List.dropWhile_cons] at hm
    by_cases hpa : p a
    · rw [if_pos hpa] at hm
      have hlen := dropWhile_length_le p (l' ++ s)
      rw [hm] at hlen
      simp at hlen
    · simp [List.dropWhile_cons, hpa]

theorem jsTrimList_idem (cs : List Char) :
    jsTrimList (jsTrimList cs) = jsTrimList cs := by
  set p := isJsWhitespace with hp
  set A := List.dropWhile p cs with hA
  have hAidem : List.dropWhile p A = A := dropWhile_idem p cs
  have hsplit : (List.dropWhile p A.reverse).reverse ++
      (List.takeWhile p A.reverse).reverse = A := by
    rw [← List.reverse_append, List.takeWhile_append_dropWhile, List.reverse_reverse]
  have hB : jsTrimList cs = (List.dropWhile p A.reverse).reverse := rfl
  have hBdrop : List.dropWhile p (jsTrimList cs) = jsTrimList cs := by
    rw [hB]
    exact dropWhile_of_append_eq p A _ _ hAidem hsplit
  show ((List.dropWhile p (jsTrimList cs)).reverse.dropWhile p).reverse = jsTrimList cs
  rw [hBdrop, hB, List.reverse_reverse, dropWhile_idem]

theorem dropWhile_head_false (p : Char → Bool) (l : List Char) (a : Char)
    (t : List Char) (h : List.dropWhile p l = a :: t) : p a = false := by
  induction l with
  | nil => cases h
  | cons b l ih =>
    rw [List.dropWhile_cons] at h
    by_cases hb : p b
    · rw [if_pos hb] at h
      exact ih h
    · rw [if_neg hb] at h
      cases h
      exact Bool.of_not_eq_true hb

theorem jsTrimList_eq_nil_iff (cs : List Char) :
    jsTrimList cs = [] ↔ ∀ c ∈ cs, isJsWhitespace c = true := by
  constructor
  · intro h
    unfold jsTrimList at h
    rw [List.reverse_eq_nil_iff, List.dropWhile_eq_nil_iff] at h
    rw [← List.dropWhile_eq_nil_iff (p := isJsWhitespace)]
    rcases hA : List.dropWhile isJsWhitespace cs with _ | ⟨a, t⟩
    · rfl
    · have ha := dropWhile_head_false isJsWhitespace cs a t hA
      have : a ∈ (List.dropWhile isJsWhitespace cs).reverse := by
        rw [hA]; simp
      have := h a this
      rw [ha] at this
      cases this
  · intro h
    unfold jsTrimList
    rw [List.dropWhile_eq_nil_iff.mpr h]
    rfl

theorem jsTrim_idem (s : String) : jsTrim (jsTrim s) = jsTrim s := by
  unfold jsTrim
  have : (String.mk (jsTrimList s.toList)).toList = jsTrimList s.toList := rfl
  rw [this, jsTrimList_idem]

theorem jsTrim_eq_empty_iff (s : String) :
    jsTrim s = "" ↔ s.toList.all isJsWhitespace = true := by
  unfold jsTrim
  rw [List.all_eq_true]
  constructor
  · intro h
    have : jsTrimList s.toList = [] := by
      have := congrArg String.toList h
      exact this
    exact (jsTrimList_eq_nil_iff s.toList).mp this
  · intro h
    have : jsTrimList s.toList = [] := (jsTrimList_eq_nil_iff s.toList).mpr h
    rw [this]

end TrimLemmas

theorem passesFilter_month (now : Instant) (e : Expense) :
    passesFilter "MONTH" now e = true ↔
      e.date.m = now.date.m ∧ e.date.y = now.date.y := by
  rw [passesFilter, if_neg (by decide), if_pos rfl]
  simp

theorem passesFilter_week (now : Instant) (e : Expense)
    (hms : now.msOfDay < 86400000) :
    passesFilter "WEEK" now e = true ↔
      (dayNumber now.date - weekdayIndex now.date < dayNumber e.date ∨
        (dayNumber e.date = dayNumber now.date - weekdayIndex now.date ∧
          now.msOfDay = 0)) := by
  rw [passesFilter, if_pos rfl, decide_eq_true_eq]
  unfold startWeekMs dateMs msPerDay
  omega

/-- Claim C1 (corrected): the WEEK comparison is by instant, not by calendar
date.  The spec-side rule `weekPassSpec` (date on or after the week-start
Sunday, by calendar day) says a record dated exactly on the week-start
Sunday passes, but the code compares the record's midnight against the
week-start Sunday carrying `now`'s time of day, so at noon of Sunday
2024-03-10 the record dated 2024-03-10 is dropped. -/
theorem c1_week_counterexample :
    weekPassSpec ⟨⟨2024, 3, 10⟩, 43200000⟩ ⟨1, 12, "Food", none, ⟨2024, 3, 10⟩⟩ = true ∧
    passesFilter "WEEK" ⟨⟨2024, 3, 10⟩, 43200000⟩
      ⟨1, 12, "Food", none, ⟨2024, 3, 10⟩⟩ = false ∧
    (aggregate [⟨1, 12, "Food", none, ⟨2024, 3, 10⟩⟩] "WEEK"
      ⟨⟨2024, 3, 10⟩, 43200000⟩).filtered = [] := by
  refine ⟨by decide, by decide, by decide⟩

/-- Claim C1 as amended: under selector WEEK a record is in the filtered
output iff its date is strictly after the most recent Sunday at or before
`now`, or falls exactly on that Sunday while `now`'s time of day is
exactly midnight — the record's date at midnight is compared against the
week-start Sunday at `now`'s time of day. -/
theorem c1_week_filter_amended (recs : List Expense) (now : Instant) (e : Expense)
    (hms : now.msOfDay < 86400000) :
    e ∈ (aggregate recs "WEEK" now).filtered ↔
      e ∈ recs ∧
        (dayNumber now.date - weekdayIndex now.date < dayNumber e.date ∨
          (dayNumber e.date = dayNumber now.date - weekdayIndex now.date ∧
            now.msOfDay = 0)) := by
  have h : (aggregate recs "WEEK" now).filtered = filteredExpenses recs "WEEK" now := rfl
  rw [h, filteredExpenses, List.mem_filter, passesFilter_week now e hms]

/-- Witness for the amended C1: scenario 2 of the spec at exactly midnight —
the record dated Sunday 2024-03-10 is kept when `now` is that Sunday at
00:00:00.000. -/
theorem c1_week_filter_amended_witness :
    (⟨1, 12, "Food", none, ⟨2024, 3, 10⟩⟩ : Expense) ∈
      (aggregate [⟨1, 12, "Food", none, ⟨2024, 3, 10⟩⟩] "WEEK"
        ⟨⟨2024, 3, 10⟩, 0⟩).filtered :=
  (c1_week_filter_amended [⟨1, 12, "Food", none, ⟨2024, 3, 10⟩⟩]
    ⟨⟨2024, 3, 10⟩, 0⟩ ⟨1, 12, "Food", none, ⟨2024, 3, 10⟩⟩ (by decide)).mpr
    (by refine ⟨by decide, ?_⟩; right; exact ⟨by decide, rfl⟩)

/-- Claim C2 (corrected): display order of the category totals is not
always first-occurrence order.  With categories `"2"` then `"1"` (both
canonical array-index strings) `Object.entries` enumerates them in
ascending numeric order `["1", "2"]`, not in insertion order `["2", "1"]`. -/
theorem c2_entries_counterexample :
    (jsObjectEntries (aggregate
        [⟨1, 3, "2", none, ⟨2024, 1, 5⟩⟩, ⟨2, 4, "1", none, ⟨2024, 1, 6⟩⟩]
        "ALL" ⟨⟨2024, 1, 1⟩, 0⟩).categoryTotals).map Prod.fst = ["1", "2"] ∧
    firstOccurrenceCats (aggregate
        [⟨1, 3, "2", none, ⟨2024, 1, 5⟩⟩, ⟨2, 4, "1", none, ⟨2024, 1, 6⟩⟩]
        "ALL" ⟨⟨2024, 1, 1⟩, 0⟩).filtered = ["2", "1"] ∧
    (["1", "2"] : List String) ≠ ["2", "1"] := by
  refine ⟨by decide, by decide, by decide⟩

/-- Claim C2 as amended: the displayed keys of the category totals are
exactly the distinct category labels of the filtered records other than
`"__proto__"` (whose assignment hits the inherited setter and creates no
own key); their order is first-occurrence order, except that labels which
are canonical array-index strings (integers 0 .. 2^32-2 in canonical
decimal form) are enumerated first, in ascending numeric order. -/
theorem c2_entries_order_amended (recs : List Expense) (sel : String) (now : Instant) :
    (jsObjectEntries (aggregate recs sel now).categoryTotals).map Prod.fst =
      jsKeyOrder ((firstOccurrenceCats (aggregate recs sel now).filtered).filter
        (fun x => x ≠ "__proto__")) := by
  have h1 : (aggregate recs sel now).categoryTotals =
      catTotalsOf (filteredExpenses recs sel now) := rfl
  have h2 : (aggregate recs sel now).filtered = filteredExpenses recs sel now := rfl
  rw [h1, h2, jsObjectEntries_map_fst, catTotalsOf_keys]

/-- Claim C3 (confirmed): under selector MONTH a record is in the filtered
output iff it is one of the input records and its date has the same
calendar month and the same calendar year as `now`. -/
theorem c3_month_filter (recs : List Expense) (now : Instant) (e : Expense) :
    e ∈ (aggregate recs "MONTH" now).filtered ↔
      e ∈ recs ∧ e.date.m = now.date.m ∧ e.date.y = now.date.y := by
  have h : (aggregate recs "MONTH" now).filtered = filteredExpenses recs "MONTH" now := rfl
  rw [h, filteredExpenses, List.mem_filter, passesFilter_month now e]

/-- Claim C4 (confirmed): the aggregation is a total function (all the
embedded definitions are total), and any selector other than `"WEEK"` and
`"MONTH"` — including unrecognized strings — behaves exactly as `"ALL"`:
every record passes the filter. -/
theorem c4_selector_fallback (recs : List Expense) (sel : String) (now : Instant)
    (h1 : sel ≠ "WEEK") (h2 : sel ≠ "MONTH") :
    (aggregate recs sel now).filtered = recs ∧
      aggregate recs sel now = aggregate recs "ALL" now := by
  have hf : filteredExpenses recs sel now = recs :=
    filteredExpenses_other recs sel now h1 h2
  have hall : filteredExpenses recs "ALL" now = recs :=
    filteredExpenses_other recs "ALL" now (by decide) (by decide)
  constructor
  · exact hf
  · simp [aggregate, hf, hall]

/-- Witness for C4: the unrecognized selector `"BOGUS"` keeps every record
and agrees with `"ALL"`. -/
theorem c4_selector_fallback_witness :
    (aggregate [⟨1, 5, "A", none, ⟨2024, 1, 5⟩⟩] "BOGUS" ⟨⟨2024, 1, 1⟩, 0⟩).filtered =
        [⟨1, 5, "A", none, ⟨2024, 1, 5⟩⟩] ∧
      aggregate [⟨1, 5, "A", none, ⟨2024, 1, 5⟩⟩] "BOGUS" ⟨⟨2024, 1, 1⟩, 0⟩ =
        aggregate [⟨1, 5, "A", none, ⟨2024, 1, 5⟩⟩] "ALL" ⟨⟨2024, 1, 1⟩, 0⟩ :=
  c4_selector_fallback [⟨1, 5, "A", none, ⟨2024, 1, 5⟩⟩] "BOGUS" ⟨⟨2024, 1, 1⟩, 0⟩
    (by decide) (by decide)

/-- Claim C5 (confirmed): for every record set, selector and reference
instant, the filtered output is a subsequence of the input — same relative
order, no insertions, no duplications. -/
theorem c5_filtered_sublist (recs : List Expense) (sel : String) (now : Instant) :
    (aggregate recs sel now).filtered.Sublist recs := by
  have h : (aggregate recs sel now).filtered = filteredExpenses recs sel now := rfl
  rw [h, filteredExpenses]
  exact List.filter_sublist recs

/-- Claim C6 (confirmed): under `"ALL"` the total is the sum of all record
amounts; for every selector an empty filtered list yields total `0`; and an
empty record set yields the empty aggregation result. -/
theorem c6_total_all_and_empty (recs : List Expense) (sel : String) (now : Instant) :
    (aggregate recs "ALL" now).total = (recs.map Expense.amount).sum ∧
      ((aggregate recs sel now).filtered = [] → (aggregate recs sel now).total = 0) ∧
      aggregate [] sel now = ⟨[], 0, []⟩ := by
  refine ⟨?_, ?_, ?_⟩
  · have hall : filteredExpenses recs "ALL" now = recs :=
      filteredExpenses_other recs "ALL" now (by decide) (by decide)
    have h : (aggregate recs "ALL" now).total = totalOf (filteredExpenses recs "ALL" now) := rfl
    rw [h, hall, totalOf_eq_sum]
  · intro h
    have h1 : (aggregate recs sel now).filtered = filteredExpenses recs sel now := rfl
    rw [h1] at h
    have h2 : (aggregate recs sel now).total = totalOf (filteredExpenses recs sel now) := rfl
    rw [h2, h]
    rfl
  · rfl

/-- Witness for C6: the empty filtered list under `"WEEK"` yields total 0. -/
theorem c6_total_all_and_empty_witness :
    (aggregate [] "WEEK" ⟨⟨2024, 3, 10⟩, 0⟩).total = 0 :=
  (c6_total_all_and_empty [] "WEEK" ⟨⟨2024, 3, 10⟩, 0⟩).2.1 rfl

/-- Claim C7 (corrected, counterexample): category totals are not always
conserved.  A record with category `"__proto__"` creates no own key — the
assignment at line 100 invokes the inherited `__proto__` setter — so its
amount vanishes: the mapping is empty while the total is 5.  A record with
category `"toString"` reads the inherited (truthy) function, and the `+`
concatenates to a string, so its key holds a non-numeric value, not the
per-category sum. -/
theorem c7_proto_counterexample :
    (aggregate [⟨1, 5, "__proto__", none, ⟨2024, 1, 5⟩⟩] "ALL"
      ⟨⟨2024, 1, 1⟩, 0⟩).categoryTotals = [] ∧
    (aggregate [⟨1, 5, "__proto__", none, ⟨2024, 1, 5⟩⟩] "ALL"
      ⟨⟨2024, 1, 1⟩, 0⟩).filtered = [⟨1, 5, "__proto__", none, ⟨2024, 1, 5⟩⟩] ∧
    (aggregate [⟨1, 5, "__proto__", none, ⟨2024, 1, 5⟩⟩] "ALL"
      ⟨⟨2024, 1, 1⟩, 0⟩).total = 5 ∧
    (5 : ℚ) ≠ 0 ∧
    (aggregate [⟨2, 7, "toString", none, ⟨2024, 1, 5⟩⟩] "ALL"
      ⟨⟨2024, 1, 1⟩, 0⟩).categoryTotals = [("toString", JSVal.nonNum)] := by
  refine ⟨by decide, by decide, ?_, by decide, by decide⟩
  have h : (aggregate [⟨1, 5, "__proto__", none, ⟨2024, 1, 5⟩⟩] "ALL"
      ⟨⟨2024, 1, 1⟩, 0⟩).total =
      totalOf [⟨1, 5, "__proto__", none, ⟨2024, 1, 5⟩⟩] := rfl
  rw [h]
  simp [totalOf]

/-- Claim C7 as amended: a key exists exactly for each distinct filtered
category other than `"__proto__"`.  A key that is not an `Object.prototype`
property name maps to the numeric sum of the amounts of the filtered
records bearing that label; a key that shadows an `Object.prototype`
property (such as `"toString"`) holds a non-numeric concatenated string
instead.  When no filtered category is `"__proto__"` or an
`Object.prototype` property name, every stored value is numeric and the
values sum to the total. -/
theorem c7_category_totals_amended (recs : List Expense) (sel : String) (now : Instant) :
    (∀ k : String,
        k ∈ (aggregate recs sel now).categoryTotals.map Prod.fst ↔
          (∃ e ∈ (aggregate recs sel now).filtered, e.category = k) ∧
            k ≠ "__proto__") ∧
      (∀ (k : String) (v : JSVal), (k, v) ∈ (aggregate recs sel now).categoryTotals →
        (k ∉ protoProps →
          v = JSVal.num ((((aggregate recs sel now).filtered.filter
              (fun e => e.category = k)).map Expense.amount).sum)) ∧
        (k ∈ protoProps → v = JSVal.nonNum)) ∧
      ((∀ e ∈ (aggregate recs sel now).filtered,
          e.category ≠ "__proto__" ∧ e.category ∉ protoProps) →
        (∀ p ∈ (aggregate recs sel now).categoryTotals, ∃ q, p.2 = JSVal.num q) ∧
          ((aggregate recs sel now).categoryTotals.map (fun p => numOr0 p.2)).sum =
            (aggregate recs sel now).total) := by
  have h1 : (aggregate recs sel now).categoryTotals =
      catTotalsOf (filteredExpenses recs sel now) := rfl
  have h2 : (aggregate recs sel now).filtered = filteredExpenses recs sel now := rfl
  have h3 : (aggregate recs sel now).total = totalOf (filteredExpenses recs sel now) := rfl
  rw [h1, h2, h3]
  refine ⟨?_, ?_, ?_⟩
  · intro k
    exact mem_catTotalsOf_keys (filteredExpenses recs sel now) k
  · intro k v hkv
    have hknd := catTotalsOf_keys_nodup (filteredExpenses recs sel now)
    have hgv : getOwn (catTotalsOf (filteredExpenses recs sel now)) k = some v :=
      getOwn_of_mem _ k v hknd hkv
    have hkmem : k ∈ (catTotalsOf (filteredExpenses recs sel now)).map Prod.fst :=
      List.mem_map.mpr ⟨(k, v), hkv, rfl⟩
    have hkp := (mem_catTotalsOf_keys (filteredExpenses recs sel now) k).mp hkmem
    have hany : (filteredExpenses recs sel now).any (fun e => e.category = k) = true := by
      rcases hkp.1 with ⟨e, he, hc⟩
      exact List.any_eq_true.mpr ⟨e, he, by simp [hc]⟩
    have hchar :
        getOwn (catTotalsOf (filteredExpenses recs sel now)) k =
          if (filteredExpenses recs sel now).any (fun e => e.category = k) then
            if k ∈ protoProps then some JSVal.nonNum
            else some (JSVal.num
              (((filteredExpenses recs sel now).filter
                (fun e => e.category = k)).map Expense.amount).sum)
          else none := by
      have := catFold_getOwn (filteredExpenses recs sel now) [] k hkp.2
      simpa [catTotalsOf, getOwn] using this
    rw [hchar, hany] at hgv
    simp only [if_true] at hgv
    constructor
    · intro hcf
      rw [if_neg hcf] at hgv
      exact (Option.some.inj hgv).symm
    · intro hct
      rw [if_pos hct] at hgv
      exact (Option.some.inj hgv).symm
  · intro hclean
    rcases catFold_sum_clean (filteredExpenses recs sel now) [] hclean
        (fun p hp => absurd hp (List.not_mem_nil p)) with ⟨hsum, hall⟩
    refine ⟨hall, ?_⟩
    have hs : ((catTotalsOf (filteredExpenses recs sel now)).map
        (fun p => numOr0 p.2)).sum =
        ((filteredExpenses recs sel now).map Expense.amount).sum := by
      simpa [catTotalsOf] using hsum
    rw [hs, totalOf_eq_sum]

/-- Witness for the amended C7: a clean one-record table — the key "A"
maps to the numeric per-category sum and the values sum to the total. -/
theorem c7_category_totals_amended_witness :
    JSVal.num 3 = JSVal.num ((((aggregate [⟨1, 3, "A", none, ⟨2024, 1, 5⟩⟩] "ALL"
        ⟨⟨2024, 1, 1⟩, 0⟩).filtered.filter
          (fun e => e.category = "A")).map Expense.amount).sum) ∧
      ((aggregate [⟨1, 3, "A", none, ⟨2024, 1, 5⟩⟩] "ALL"
          ⟨⟨2024, 1, 1⟩, 0⟩).categoryTotals.map (fun p => numOr0 p.2)).sum =
        (aggregate [⟨1, 3, "A", none, ⟨2024, 1, 5⟩⟩] "ALL" ⟨⟨2024, 1, 1⟩, 0⟩).total :=
  ⟨((c7_category_totals_amended [⟨1, 3, "A", none, ⟨2024, 1, 5⟩⟩] "ALL"
      ⟨⟨2024, 1, 1⟩, 0⟩).2.1 "A" (JSVal.num 3) (by decide)).1 (by decide),
    ((c7_category_totals_amended [⟨1, 3, "A", none, ⟨2024, 1, 5⟩⟩] "ALL"
      ⟨⟨2024, 1, 1⟩, 0⟩).2.2 (by decide)).2⟩

theorem zero_lt_of_valid (val : JSNum) (category : String)
    (h : validationFails val category = false) :
    jsLt (JSNum.fin 0) val = true := by
  cases val with
  | nan => simp [validationFails, jsIsNaN] at h
  | posInf => rfl
  | negInf => simp [validationFails, jsIsNaN, jsLe] at h
  | fin q =>
    simp [validationFails, jsIsNaN, jsLe] at h
    simpa [jsLt] using h.1

theorem trim_ne_of_valid (val : JSNum) (category : String)
    (h : validationFails val category = false) :
    jsTrim category ≠ "" := by
  simp [validationFails] at h
  exact h.2

/-- Claim C8 (confirmed): in edit mode, a valid submit relates every input
row to its output row so that `id` and `date` are unchanged, and any row
whose id differs from the edit target is wholly unchanged (the UPDATE
statement sets only amount, category and note, and only where the id
matches). -/
theorem c8_update_frame (db : List Row) (val : JSNum) (category note : String)
    (i : Int) (today : String) (nextId : Int)
    (hi : i ≠ 0) (hv : validationFails val category = false) :
    List.Forall₂
      (fun r r' : Row => r'.id = r.id ∧ r'.date = r.date ∧ (r.id ≠ i → r' = r))
      db (submit db val category note (some i) today nextId) := by
  have hsub : submit db val category note (some i) today nextId =
      db.map (fun r =>
        if r.id = i then
          { r with
              amount := val
              category := jsTrim category
              note := jsOrNull (jsTrim note) }
        else r) := by
    simp [submit, hv, hi]
  rw [hsub, List.forall₂_map_right_iff]
  apply List.forall₂_same.mpr
  intro r hr
  by_cases h : r.id = i
  · rw [if_pos h]
    exact ⟨rfl, rfl, fun hc => absurd h hc⟩
  · rw [if_neg h]
    exact ⟨rfl, rfl, fun _ => rfl⟩

/-- Witness for C8: updating the row with id 1 in a two-row table. -/
theorem c8_update_frame_witness :
    List.Forall₂
      (fun r r' : Row => r'.id = r.id ∧ r'.date = r.date ∧ (r.id ≠ 1 → r' = r))
      [⟨1, JSNum.fin 5, "A", none, "2024-01-01"⟩, ⟨2, JSNum.fin 6, "B", none, "2024-01-02"⟩]
      (submit [⟨1, JSNum.fin 5, "A", none, "2024-01-01"⟩, ⟨2, JSNum.fin 6, "B", none, "2024-01-02"⟩]
        (JSNum.fin 9) "C" "" (some 1) "2024-03-10" 3) :=
  c8_update_frame
    [⟨1, JSNum.fin 5, "A", none, "2024-01-01"⟩, ⟨2, JSNum.fin 6, "B", none, "2024-01-02"⟩]
    (JSNum.fin 9) "C" "" 1 "2024-03-10" 3 (by decide) (by decide)

/-- Claim C9 (corrected, counterexample): `parseFloat("Infinity")` is
`Infinity`, which is not finite yet passes the validation guard
(`isNaN` is false and `Infinity <= 0` is false), so a row is inserted —
the claim's "no write unless the parsed amount is a finite number
greater than 0" fails. -/
theorem c9_infinity_counterexample :
    isFiniteNum JSNum.posInf = false ∧
    submit [] JSNum.posInf "x" "" none "2024-03-10" 1 =
      [⟨1, JSNum.posInf, "x", none, "2024-03-10"⟩] ∧
    ([⟨1, JSNum.posInf, "x", none, "2024-03-10"⟩] : List Row) ≠ [] := by
  refine ⟨rfl, by decide, by decide⟩

/-- Claim C9 as amended: if the parsed amount is NaN or is `<= 0` in the
JavaScript order, or the category trims to empty, the submit leaves the
table unchanged; otherwise every row of the resulting table — the written
row included — has amount `> 0` in the JavaScript order (positive finite
or `Infinity`) and a category that is non-empty after trimming. -/
theorem c9_validation_invariant (db : List Row) (val : JSNum)
    (category note : String) (editingId : Option Int) (today : String)
    (nextId : Int) :
    (validationFails val category = true →
      submit db val category note editingId today nextId = db) ∧
    (validationFails val category = false →
      (∀ r ∈ db, rowOk r) →
      ∀ r ∈ submit db val category note editingId today nextId, rowOk r) := by
  constructor
  · intro h
    simp [submit, h]
  · intro hv hdb r hr
    have hamt : jsLt (JSNum.fin 0) val = true := zero_lt_of_valid val category hv
    have hcat : jsTrim (jsTrim category) ≠ "" := by
      rw [jsTrim_idem]
      exact trim_ne_of_valid val category hv
    have hins : r ∈ db ++ [(⟨nextId, val, jsTrim category, jsOrNull (jsTrim note), today⟩ : Row)] →
        rowOk r := by
      intro hmem
      rcases List.mem_append.mp hmem with h | h
      · exact hdb r h
      · rw [List.mem_singleton.mp h]
        exact ⟨hamt, hcat⟩
    cases editingId with
    | none =>
      simp only [submit, hv, Bool.false_eq_true, if_false] at hr
      exact hins hr
    | some i =>
      by_cases hi : i = 0
      · subst hi
        simp only [submit, hv, Bool.false_eq_true, if_false, if_pos rfl] at hr
        exact hins hr
      · simp only [submit, hv, Bool.false_eq_true, if_false, if_neg hi] at hr
        rcases List.mem_map.mp hr with ⟨r0, hr0, hfr⟩
        by_cases hid : r0.id = i
        · rw [← hfr, if_pos hid]
          exact ⟨hamt, hcat⟩
        · rw [← hfr, if_neg hid]
          exact hdb r0 hr0

/-- Witness for C9's amended theorem: a NaN amount writes nothing, and a
valid insert into an empty table yields only rows satisfying the
invariant. -/
theorem c9_validation_invariant_witness :
    submit [] JSNum.nan "A" "" none "2024-03-10" 1 = [] ∧
      rowOk ⟨1, JSNum.fin 5, "A", none, "2024-03-10"⟩ :=
  ⟨(c9_validation_invariant [] JSNum.nan "A" "" none "2024-03-10" 1).1 (by decide),
    (c9_validation_invariant [] (JSNum.fin 5) "A" "" none "2024-03-10" 1).2
      (by decide) (fun r hr => absurd hr (List.not_mem_nil r))
      ⟨1, JSNum.fin 5, "A", none, "2024-03-10"⟩ (by decide)⟩

/-- Claim C10 (confirmed): on both insert and update, the row written by a
valid submit stores `null` for the note exactly when the note input is
empty or all-whitespace; otherwise it stores the trimmed note text, which
is non-empty. -/
theorem c10_note_normalization (db : List Row) (val : JSNum)
    (category note : String) (editingId : Option Int) (today : String)
    (nextId : Int) (r : Row)
    (hv : validationFails val category = false)
    (hr : r ∈ submit db val category note editingId today nextId)
    (hnew : r ∉ db) :
    (note.toList.all isJsWhitespace = true → r.note = none) ∧
    (note.toList.all isJsWhitespace = false →
      r.note = some (jsTrim note) ∧ jsTrim note ≠ "") := by
  have hnote : r.note = jsOrNull (jsTrim note) := by
    have hins : r ∈ db ++ [(⟨nextId, val, jsTrim category, jsOrNull (jsTrim note), today⟩ : Row)] →
        r.note = jsOrNull (jsTrim note) := by
      intro hmem
      rcases List.mem_append.mp hmem with h | h
      · exact absurd h hnew
      · rw [List.mem_singleton.mp h]
    cases editingId with
    | none =>
      simp only [submit, hv, Bool.false_eq_true, if_false] at hr
      exact hins hr
    | some i =>
      by_cases hi : i = 0
      · subst hi
        simp only [submit, hv, Bool.false_eq_true, if_false, if_pos rfl] at hr
        exact hins hr
      · simp only [submit, hv, Bool.false_eq_true, if_false, if_neg hi] at hr
        rcases List.mem_map.mp hr with ⟨r0, hr0, hfr⟩
        by_cases hid : r0.id = i
        · rw [← hfr, if_pos hid]
        · rw [if_neg hid] at hfr
          exact absurd (hfr ▸ hr0) hnew
  constructor
  · intro hws
    rw [hnote, (jsTrim_eq_empty_iff note).mpr hws]
    rfl
  · intro hws
    have hne : jsTrim note ≠ "" := fun hc => by
      rw [(jsTrim_eq_empty_iff note).mp hc] at hws
      cases hws
    rw [hnote, jsOrNull, if_neg hne]
    exact ⟨rfl, hne⟩

/-- Witness for C10: inserting with note `" hi "` stores the trimmed text
`"hi"`. -/
theorem c10_note_normalization_witness :
    ((" hi " : String).toList.all isJsWhitespace = true →
      (⟨1, JSNum.fin 5, "A", some "hi", "2024-03-10"⟩ : Row).note = none) ∧
    ((" hi " : String).toList.all isJsWhitespace = false →
      (⟨1, JSNum.fin 5, "A", some "hi", "2024-03-10"⟩ : Row).note = some (jsTrim " hi ") ∧
        jsTrim " hi " ≠ "") :=
  c10_note_normalization [] (JSNum.fin 5) "A" " hi " none "2024-03-10" 1
    ⟨1, JSNum.fin 5, "A", some "hi", "2024-03-10"⟩
    (by decide) (by decide) (by decide)
